import Mathlib

set_option maxHeartbeats 1000000

set_option maxRecDepth 20000

/- Shallow embedding of the tiny search engine core: word normalization
   and index construction (indexer.c), query validation and boolean
   retrieval (query.c), and index file persistence (indexio.c in
   pageio.c). C strings are modeled as lists of characters, C int
   values as unbounded integers, and the external hash table and queue
   collaborators as insertion ordered lists, following the determinism
   requirement the specification places on them. -/

/- Character classification, C locale. -/

def cIsSpace (c : Char) : Bool :=
  decide (c = ' ' ∨ c = '\t' ∨ c = '\n' ∨ c = Char.ofNat 11 ∨ c = Char.ofNat 12 ∨ c = '\r')

def cIsAlpha (c : Char) : Bool :=
  decide (('A' ≤ c ∧ c ≤ 'Z') ∨ ('a' ≤ c ∧ c ≤ 'z'))

def cToLower (c : Char) : Char :=
  if 'A' ≤ c ∧ c ≤ 'Z' then Char.ofNat (c.toNat + 32) else c

/- Data model from index.h. -/

structure doc_entry where
  docID : Int
  count : Int
  deriving DecidableEq

structure word_entry where
  word : List Char
  docs : List doc_entry
  deriving DecidableEq

structure query_result where
  docID : Int
  rank : Int
  deriving DecidableEq

/- NormalizeWord from indexer.c: reject short or non alphabetic
   tokens, otherwise lowercase. -/

def NormalizeWord (w : List Char) : Option (List Char) :=
  if w.length < 3 then none
  else if w.all cIsAlpha then some (w.map cToLower) else none

/- hsearch over the word table (search_word) and qsearch over a doc
   queue (search_doc) and over a result queue (search_docid_queue):
   linear first match scans. -/

def lookup_word : List word_entry → List Char → Option word_entry
  | [], _ => none
  | e :: es, w => if e.word = w then some e else lookup_word es w

def lookup_doc : List doc_entry → Int → Option doc_entry
  | [], _ => none
  | e :: es, d => if e.docID = d then some e else lookup_doc es d

def lookup_result : List query_result → Int → Option query_result
  | [], _ => none
  | r :: rs, d => if r.docID = d then some r else lookup_result rs d

/- strtok tokenization of a query line on the delimiters space, tab
   and newline (query.c, validate_and_parse_query). -/

def isQDelim (c : Char) : Bool :=
  decide (c = ' ' ∨ c = '\t' ∨ c = '\n')

def tokenizeAux : List Char → List Char → List (List Char)
  | [], acc => if acc = [] then [] else [acc.reverse]
  | c :: cs, acc =>
    if isQDelim c then
      if acc = [] then tokenizeAux cs [] else acc.reverse :: tokenizeAux cs []
    else tokenizeAux cs (c :: acc)

def tokenizeQ (line : List Char) : List (List Char) :=
  tokenizeAux line []

def MAX_WORDS : Nat := 100

def andTok : List Char := ['a', 'n', 'd']

def orTok : List Char := ['o', 'r']

/- Operator test as in query.c: exact strcmp against the lowercase
   reserved words, applied to the raw token. -/

def is_op (t : List Char) : Bool :=
  decide (t = andTok ∨ t = orTok)

/- validate_word from query.c: every character must be alphabetic;
   the token is lowercased in place. -/

def validate_word (w : List Char) : Option (List Char) :=
  if w.all cIsAlpha then some (w.map cToLower) else none

/- The per token loop of validate_and_parse_query: operators may not
   be adjacent, every non operator token must pass validate_word. -/

def validate_tokens : List (List Char) → Bool → Option (List (List Char))
  | [], _ => some []
  | t :: ts, lastOp =>
    if is_op t then
      if lastOp then none
      else
        match validate_tokens ts true with
        | none => none
        | some rest => some (t :: rest)
    else
      match validate_word t with
      | none => none
      | some w =>
        match validate_tokens ts false with
        | none => none
        | some rest => some (w :: rest)

/- The syntax checks of validate_and_parse_query performed after the
   token count check: empty query accepted, operator at either end
   rejected, then the per token loop. -/

def validate_structure (toks : List (List Char)) : Option (List (List Char)) :=
  match toks with
  | [] => some []
  | t :: ts =>
    if is_op t || is_op ((t :: ts).getLastD t) then none
    else validate_tokens (t :: ts) false

/- validate_and_parse_query from query.c: tokenize, reject when more
   than MAX_WORDS tokens were produced, then the syntax checks.
   The result none models the C return value -1 (invalid query). -/

def validate_and_parse_query (line : List Char) : Option (List (List Char)) :=
  if MAX_WORDS < (tokenizeQ line).length then none
  else validate_structure (tokenizeQ line)

/- Retrieval, query.c. A content token is one that is not the literal
   word and and has length at least three; all other tokens are
   skipped by compute_and_intersection. -/

def is_content (t : List Char) : Bool :=
  decide (¬ (t = andTok ∨ t.length < 3))

def split_first_content : List (List Char) → Option (List Char × List (List Char))
  | [] => none
  | t :: ts => if is_content t then some (t, ts) else split_first_content ts

/- One iteration of the intersection loop of compute_and_intersection:
   skip non content tokens, drop everything when the word is absent,
   otherwise keep exactly the documents present in the new word and
   lower their rank to that word count when it is smaller. -/

def and_step (idx : List word_entry) (acc : Option (List query_result)) (t : List Char) :
    Option (List query_result) :=
  match acc with
  | none => none
  | some rs =>
    if is_content t then
      match lookup_word idx t with
      | none => none
      | some nw =>
        some (rs.filterMap (fun qr =>
          match lookup_doc nw.docs qr.docID with
          | none => none
          | some de => some ⟨qr.docID, if de.count < qr.rank then de.count else qr.rank⟩))
    else some rs

def compute_and_intersection (idx : List word_entry) (tokens : List (List Char)) :
    Option (List query_result) :=
  match split_first_content tokens with
  | none => none
  | some (w, rest) =>
    match lookup_word idx w with
    | none => none
    | some e => rest.foldl (and_step idx) (some (e.docs.map (fun de => ⟨de.docID, de.count⟩)))

/- merge_or_results from query.c: each result of the group is merged
   into the master queue, adding its rank to an existing entry with
   the same docID or appending it at the back. -/

def update_first : List query_result → query_result → List query_result
  | [], _ => []
  | r :: rs, qr =>
    if r.docID = qr.docID then ⟨r.docID, r.rank + qr.rank⟩ :: rs
    else r :: update_first rs qr

def merge_step (fin : List query_result) (qr : query_result) : List query_result :=
  match lookup_result fin qr.docID with
  | none => fin ++ [qr]
  | some _ => update_first fin qr

def merge_or_results (fin : List query_result) (gs : List query_result) : List query_result :=
  gs.foldl merge_step fin

/- process_query from query.c splits the token sequence into AND
   groups at each literal or token and merges the group results left
   to right into an initially empty master queue. -/

def split_or : List (List Char) → List (List (List Char))
  | [] => [[]]
  | t :: ts =>
    if t = orTok then [] :: split_or ts
    else
      match split_or ts with
      | [] => [[t]]
      | g :: gs => (t :: g) :: gs

def process_query (idx : List word_entry) (tokens : List (List Char)) : List query_result :=
  (split_or tokens).foldl (fun fin g =>
    match compute_and_intersection idx g with
    | none => fin
    | some rs => merge_or_results fin rs) []

/- Count of one word for one document as obtainable from the index
   through the first match searches. -/

def word_count (idx : List word_entry) (w : List Char) (d : Int) : Option Int :=
  match lookup_word idx w with
  | none => none
  | some e =>
    match lookup_doc e.docs d with
    | none => none
    | some de => some de.count

/- Minimum of two optional counts; absent as soon as one is absent. -/

def ominc : Option Int → Option Int → Option Int
  | some x, some y => some (min x y)
  | _, _ => none

/- Minimum of the per document counts of a list of words; absent as
   soon as one word or its document entry is absent. -/

def min_count (idx : List word_entry) : List (List Char) → Int → Option Int
  | [], _ => none
  | [w], d => word_count idx w d
  | w :: w2 :: ws, d => ominc (word_count idx w d) (min_count idx (w2 :: ws) d)

/- Index construction, indexer.c build_index. record_doc is the
   qsearch then increment or qput path for one occurrence inside one
   word entry; add_occurrence is the hsearch then update or hput path
   for one normalized word. -/

def record_doc : List doc_entry → Int → List doc_entry
  | [], d => [⟨d, 1⟩]
  | e :: es, d =>
    if e.docID = d then ⟨e.docID, e.count + 1⟩ :: es
    else e :: record_doc es d

def add_occurrence : List word_entry → List Char → Int → List word_entry
  | [], w, d => [⟨w, [⟨d, 1⟩]⟩]
  | e :: es, w, d =>
    if e.word = w then ⟨e.word, record_doc e.docs d⟩ :: es
    else e :: add_occurrence es w d

def process_doc (idx : List word_entry) (d : Int) (ws : List (List Char)) : List word_entry :=
  ws.foldl (fun i raw =>
    match NormalizeWord raw with
    | none => i
    | some nw => add_occurrence i nw d) idx

/- The driver loop of build_index over the contiguous corpus prefix:
   document number i of the list carries docID i plus one, matching
   pageload being called with docIDs one, two, and so on until the
   first missing document ends the corpus. -/

def build_from : Int → List (List (List Char)) → List word_entry → List word_entry
  | _, [], idx => idx
  | d, ws :: rest, idx => build_from (d + 1) rest (process_doc idx d ws)

def build_index (docs : List (List (List Char))) : List word_entry :=
  build_from 1 docs []

/- Occurrence count of one word in a word stream. -/

def countW (w : List Char) : List (List Char) → Int
  | [] => 0
  | x :: xs => (if x = w then 1 else 0) + countW w xs

/- Adding k further occurrences to an optional stored count; adding
   none leaves the count (and its absence) untouched. -/

def opt_add (o : Option Int) (k : Int) : Option Int :=
  if k = 0 then o else some (o.getD 0 + k)

/- Structural invariant of the index during construction: every doc
   list has strictly increasing docIDs, all bounded by d. -/

def idx_inv (d : Int) (idx : List word_entry) : Prop :=
  ∀ e ∈ idx, List.Pairwise (fun a b : doc_entry => a.docID < b.docID) e.docs ∧
    ∀ de ∈ e.docs, de.docID ≤ d

/- Persistence, indexio.c. Decimal rendering models fprintf with the
   d conversion; parsing models sscanf with the d conversion (skip
   whitespace, optional sign, a maximal nonempty digit run). -/

def digitChar (k : Nat) : Char := Char.ofNat (48 + k)

def natToDigitsFuel : Nat → Nat → List Char
  | 0, _ => []
  | fuel + 1, n =>
    if n < 10 then [digitChar n]
    else natToDigitsFuel fuel (n / 10) ++ [digitChar (n % 10)]

def natToDigits (n : Nat) : List Char := natToDigitsFuel (n + 1) n

def intToDec (i : Int) : List Char :=
  if i < 0 then '-' :: natToDigits i.natAbs else natToDigits i.natAbs

def isDigitC (c : Char) : Bool :=
  decide ('0' ≤ c ∧ c ≤ '9')

def digitVal (c : Char) : Nat := c.toNat - 48

def skip_ws : List Char → List Char
  | [] => []
  | c :: cs => if cIsSpace c then skip_ws cs else c :: cs

def parseDigitsAcc : Nat → List Char → Nat × List Char
  | a, [] => (a, [])
  | a, c :: cs => if isDigitC c then parseDigitsAcc (10 * a + digitVal c) cs else (a, c :: cs)

def parseSignedInt : List Char → Option (Int × List Char)
  | [] => none
  | c :: cs =>
    if c = '-' then
      match cs with
      | [] => none
      | d :: _ =>
        if isDigitC d then
          some (-((parseDigitsAcc 0 cs).1 : Int), (parseDigitsAcc 0 cs).2)
        else none
    else if c = '+' then
      match cs with
      | [] => none
      | d :: _ =>
        if isDigitC d then
          some (((parseDigitsAcc 0 cs).1 : Int), (parseDigitsAcc 0 cs).2)
        else none
    else if isDigitC c then
      some (((parseDigitsAcc 0 (c :: cs)).1 : Int), (parseDigitsAcc 0 (c :: cs)).2)
    else none

def parseIntTok (s : List Char) : Option (Int × List Char) :=
  parseSignedInt (skip_ws s)

/- A residue whose first character, when present, is not a digit, so
   a greedy digit run cannot extend into it. -/

def not_digit_head : List Char → Prop
  | [] => True
  | c :: _ => isDigitC c = false

/- One sscanf call with format space d space d n: two integers or
   failure, with the rest of the line after the consumed prefix. -/

def parsePair (s : List Char) : Option (Int × Int × List Char) :=
  match parseIntTok s with
  | none => none
  | some (d, r1) =>
    match parseIntTok r1 with
    | none => none
    | some (c, r2) => some (d, c, r2)

/- The pair reading loop of indexload; the fuel argument only bounds
   the iteration count, one unit of input is consumed per pair. -/

def parsePairsFuel : Nat → List Char → List doc_entry
  | 0, _ => []
  | n + 1, s =>
    match parsePair s with
    | none => []
    | some (d, c, r) => ⟨d, c⟩ :: parsePairsFuel n r

def parsePairs (s : List Char) : List doc_entry :=
  parsePairsFuel (s.length + 1) s

/- sscanf with format 255s: skip whitespace then read at most 255 non
   whitespace characters. -/

def take_tok : Nat → List Char → List Char
  | 0, _ => []
  | _, [] => []
  | n + 1, c :: cs => if cIsSpace c then [] else c :: take_tok n cs

/- The per line body of indexload: skip the line when no token is
   present, otherwise build a word entry from the token and the pairs
   parsed from the remainder of the line. -/

def indexload_line (line : List Char) : Option word_entry :=
  if take_tok 255 (skip_ws line) = [] then none
  else some ⟨take_tok 255 (skip_ws line),
    parsePairs ((skip_ws line).drop (take_tok 255 (skip_ws line)).length)⟩

def FGETS_LIM : Nat := 9999

/- One fgets call on a buffer of 10000 bytes: read up to the limit,
   stopping after a newline. -/

def takeChunk : Nat → List Char → List Char
  | 0, _ => []
  | _, [] => []
  | n + 1, c :: cs => if c = '\n' then [c] else c :: takeChunk n cs

def fgetsChunksFuel : Nat → List Char → List (List Char)
  | 0, _ => []
  | n + 1, s =>
    match s with
    | [] => []
    | c :: cs =>
      takeChunk FGETS_LIM (c :: cs) ::
        fgetsChunksFuel n ((c :: cs).drop (takeChunk FGETS_LIM (c :: cs)).length)

def fgetsChunks (s : List Char) : List (List Char) :=
  fgetsChunksFuel s.length s

/- indexload over a whole file: fgets chunking, then the per line
   body; hput is modeled as appending to an insertion ordered list,
   the determinism the specification requires of the hash table. -/

def indexload (content : List Char) : List word_entry :=
  (fgetsChunks content).foldl (fun idx l =>
    match indexload_line l with
    | none => idx
    | some e => idx ++ [e]) []

/- indexsave: one line per word entry in iteration order, the word
   followed by one space separated docID count pair per doc entry. -/

def save_doc (de : doc_entry) : List Char :=
  ' ' :: (intToDec de.docID ++ ' ' :: intToDec de.count)

def save_line (e : word_entry) : List Char :=
  e.word ++ (e.docs.map save_doc).flatten ++ ['\n']

def indexsave (idx : List word_entry) : List Char :=
  (idx.map save_line).flatten

/- The first whitespace separated token of a line, specification
   view. -/

def first_tok (line : List Char) : List Char :=
  (skip_ws line).takeWhile (fun c => !cIsSpace c)

/- A word entry whose saved line survives the fixed buffers of
   indexload: nonempty whitespace free word of at most 255 characters
   and a line short enough for one fgets read. -/

def good_entry (e : word_entry) : Bool :=
  decide (e.word ≠ [] ∧ e.word.length ≤ 255 ∧ (∀ c ∈ e.word, cIsSpace c = false) ∧
    (save_line e).length ≤ FGETS_LIM)

/- Concrete data used by witnesses. -/

def catTok : List Char := ['c', 'a', 't']

def dogTok : List Char := ['d', 'o', 'g']

def idxC : List word_entry := [⟨catTok, [⟨1, 2⟩]⟩, ⟨dogTok, [⟨1, 5⟩]⟩]

def idxC2 : List word_entry := [⟨catTok, [⟨1, 2⟩]⟩]

def idxRT : List word_entry := [⟨catTok, [⟨1, 2⟩, ⟨3, 1⟩]⟩, ⟨dogTok, [⟨2, 5⟩]⟩]

def D9 : List (List (List Char)) :=
  [[['C', 'a', 't'], ['c', 'a', 't'], ['d', 'o', 'g']], [['c', 'a', 't']]]

def L101 : List Char := (List.replicate 101 ['c', 'a', 't', ' ']).flatten

/- Theorems. -/

/-- C4: word normalization fails exactly when the token is shorter
than three characters or contains a non alphabetic character, and
otherwise returns the lowercase copy of the token. -/
theorem normalize_word_spec (w : List Char) :
    (NormalizeWord w = none ↔ (w.length < 3 ∨ ∃ c ∈ w, cIsAlpha c = false)) ∧
    (¬ (w.length < 3 ∨ ∃ c ∈ w, cIsAlpha c = false) → NormalizeWord w = some (w.map cToLower)) := by
  constructor
  · constructor
    · intro h
      by_cases h3 : w.length < 3
      · exact Or.inl h3
      · right
        by_cases ha : w.all cIsAlpha = true
        · exfalso
          simp [NormalizeWord, h3, ha] at h
        · rw [List.all_eq_true] at ha
          push_neg at ha
          obtain ⟨c, hc, hcc⟩ := ha
          exact ⟨c, hc, by simpa using hcc⟩
    · intro h
      rcases h with h3 | hex
      · simp [NormalizeWord, h3]
      · obtain ⟨c, hc, hcc⟩ := hex
        have hna : ¬ (w.all cIsAlpha = true) := by
          rw [List.all_eq_true]
          intro hall
          have := hall c hc
          rw [hcc] at this
          cases this
        by_cases h3 : w.length < 3 <;> simp [NormalizeWord, h3, hna]
  · intro h
    push_neg at h
    obtain ⟨h3, hall⟩ := h
    have ha : w.all cIsAlpha = true := by
      rw [List.all_eq_true]
      intro c hc
      have := hall c hc
      simpa using this
    simp [NormalizeWord, h3, ha]

/-- C4 witness: the token Cat is long enough and alphabetic, so it
normalizes to its lowercase copy cat. -/
theorem normalize_word_spec_wit :
    ¬ ((['C', 'a', 't'] : List Char).length < 3 ∨
        ∃ c ∈ (['C', 'a', 't'] : List Char), cIsAlpha c = false) ∧
    NormalizeWord ['C', 'a', 't'] = some (List.map cToLower ['C', 'a', 't']) :=
  ⟨by decide, (normalize_word_spec ['C', 'a', 't']).2 (by decide)⟩

/-- C6 counterexample: the validator compares the raw tokens against
the lowercase reserved words with a case sensitive strcmp before any
lowercasing, so the line AND dog, whose first token is the reserved
word and up to case, is accepted instead of rejected, and the token
then becomes a lowercase operator in the normalized output. -/
theorem operator_case_cex :
    validate_and_parse_query ['A', 'N', 'D', ' ', 'd', 'o', 'g'] = some [andTok, dogTok] ∧
    List.map cToLower ((tokenizeQ ['A', 'N', 'D', ' ', 'd', 'o', 'g']).headD []) = andTok := by
  constructor
  · decide
  · decide

/-- C6 amended: a query line whose first or last whitespace separated
token is exactly the lowercase reserved word and or or is rejected as
a whole, with no partial token list returned; uppercase variants of
the reserved words are not caught by this check. -/
theorem reject_operator_at_ends (line : List Char) (t : List Char) (ts : List (List Char))
    (htoks : tokenizeQ line = t :: ts)
    (hop : is_op t = true ∨ is_op ((t :: ts).getLastD []) = true) :
    validate_and_parse_query line = none := by
  unfold validate_and_parse_query
  rw [htoks]
  by_cases hlen : MAX_WORDS < (t :: ts).length
  · rw [if_pos hlen]
  · rw [if_neg hlen]
    have hlast : (t :: ts).getLastD ([] : List Char) = (t :: ts).getLastD t := by
      rw [List.getLastD_cons, List.getLastD_cons]
    have hcond : (is_op t || is_op ((t :: ts).getLastD t)) = true := by
      rcases hop with h | h
      · rw [h, Bool.true_or]
      · rw [hlast] at h
        rw [h, Bool.or_true]
    simp only [validate_structure, hcond]
    rfl

/-- C6 amended witness: the line cat and ends in the lowercase
reserved word and, so the validator rejects the whole line. -/
theorem reject_operator_at_ends_wit :
    tokenizeQ ['c', 'a', 't', ' ', 'a', 'n', 'd'] = [catTok, andTok] ∧
    validate_and_parse_query ['c', 'a', 't', ' ', 'a', 'n', 'd'] = none :=
  ⟨by decide, reject_operator_at_ends ['c', 'a', 't', ' ', 'a', 'n', 'd'] catTok [andTok]
    (by decide) (by decide)⟩

/-- C10: a query line tokenizing to more than MAX_WORDS (one hundred)
tokens is rejected with the same invalid query signal regardless of
the tokens themselves, and for at most one hundred tokens the outcome
is exactly that of the remaining syntax checks, so the cap never
rejects such a line. -/
theorem query_word_cap (line : List Char) :
    (MAX_WORDS < (tokenizeQ line).length → validate_and_parse_query line = none) ∧
    ((tokenizeQ line).length ≤ MAX_WORDS →
      validate_and_parse_query line = validate_structure (tokenizeQ line)) := by
  constructor
  · intro h
    simp [validate_and_parse_query, h]
  · intro h
    have hn : ¬ MAX_WORDS < (tokenizeQ line).length := by omega
    simp [validate_and_parse_query, hn]

/-- C10 witness: a line of one hundred and one valid words is
rejected by the cap alone. -/
theorem query_word_cap_wit :
    MAX_WORDS < (tokenizeQ L101).length ∧ validate_and_parse_query L101 = none :=
  ⟨by decide, (query_word_cap L101).1 (by decide)⟩

/-- C7: between two content words (length at least three, not the
reserved word and), an explicit and connective changes nothing: the
queries a b and a and b evaluate to the same result list. -/
theorem and_connective_noop (idx : List word_entry) (a b : List Char)
    (ha3 : 3 ≤ a.length) (hb3 : 3 ≤ b.length) (ha : a ≠ andTok) (_hb : b ≠ andTok) :
    process_query idx [a, b] = process_query idx [a, andTok, b] := by
  have hao : a ≠ orTok := by
    intro h
    rw [h] at ha3
    simp [orTok] at ha3
  have hbo : b ≠ orTok := by
    intro h
    rw [h] at hb3
    simp [orTok] at hb3
  have hca : is_content a = true := by
    simp [is_content, ha]
    omega
  have handc : is_content andTok = false := by decide
  have hsplit1 : split_or [a, b] = [[a, b]] := by
    simp [split_or, hao, hbo]
  have hsplit2 : split_or [a, andTok, b] = [[a, andTok, b]] := by
    simp [split_or, hao, hbo, show andTok ≠ orTok from by decide]
  have hint : compute_and_intersection idx [a, b] = compute_and_intersection idx [a, andTok, b] := by
    cases hlw : lookup_word idx a with
    | none =>
      simp [compute_and_intersection, split_first_content, hca, hlw]
    | some e =>
      simp [compute_and_intersection, split_first_content, hca, hlw, and_step, handc]
  rw [process_query, process_query, hsplit1, hsplit2]
  rw [List.foldl_cons, List.foldl_cons, hint]

/-- C7 witness: with cat and dog each present in doc one, the queries
cat dog and cat and dog coincide, and both return doc one with the
minimum rank two. -/
theorem and_connective_noop_wit :
    process_query idxC [catTok, dogTok] = process_query idxC [catTok, andTok, dogTok] ∧
    process_query idxC [catTok, andTok, dogTok] = [⟨1, 2⟩] :=
  ⟨and_connective_noop idxC catTok dogTok (by decide) (by decide) (by decide) (by decide),
   by decide⟩

/- Helper lemmas about the result merge. -/

theorem lookup_result_none_iff (F : List query_result) (d : Int) :
    lookup_result F d = none ↔ ∀ r ∈ F, r.docID ≠ d := by
  induction F with
  | nil => simp [lookup_result]
  | cons r rs ih =>
    by_cases h : r.docID = d
    · simp [lookup_result, h]
    · simp [lookup_result, h, ih]

theorem update_first_eq_map (F : List query_result) (qr : query_result)
    (hU : List.Pairwise (fun x y : query_result => x.docID ≠ y.docID) F) :
    update_first F qr =
      F.map (fun s => if s.docID = qr.docID then ⟨s.docID, s.rank + qr.rank⟩ else s) := by
  induction F with
  | nil => rfl
  | cons r rs ih =>
    rcases List.pairwise_cons.mp hU with ⟨hr, hrs⟩
    by_cases h : r.docID = qr.docID
    · have hcong : rs.map (fun s => if s.docID = qr.docID then (⟨s.docID, s.rank + qr.rank⟩ : query_result) else s) = rs.map id := by
        apply List.map_congr_left
        intro s hs
        have hne : s.docID ≠ qr.docID := by
          intro hh
          exact hr s hs (h.trans hh.symm)
        simp [hne]
      simp [update_first, h, hcong]
    · simp [update_first, h, ih hrs]

/-- C2: when the master result set has pairwise distinct docIDs,
merging one group result adds its rank to the existing entry with the
same docID and appends it otherwise, groups being merged left to
right by process_query; in particular the query cat or cat over an
index where cat maps to doc one with count two yields doc one with
rank four. -/
theorem or_merge_adds_ranks (F : List query_result) (qr : query_result)
    (hU : List.Pairwise (fun x y : query_result => x.docID ≠ y.docID) F) :
    ((∀ r ∈ F, r.docID ≠ qr.docID) → merge_or_results F [qr] = F ++ [qr]) ∧
    ((∃ r ∈ F, r.docID = qr.docID) →
      merge_or_results F [qr] =
        F.map (fun s => if s.docID = qr.docID then ⟨s.docID, s.rank + qr.rank⟩ else s)) ∧
    process_query idxC2 [catTok, orTok, catTok] = [⟨1, 4⟩] := by
  refine ⟨?_, ?_, by decide⟩
  · intro h
    have hnone : lookup_result F qr.docID = none := (lookup_result_none_iff F qr.docID).mpr h
    simp [merge_or_results, merge_step, hnone]
  · intro h
    have hn : ¬ lookup_result F qr.docID = none := by
      rw [lookup_result_none_iff]
      push_neg
      obtain ⟨r, hr, he⟩ := h
      exact ⟨r, hr, he⟩
    cases hl : lookup_result F qr.docID with
    | none => exact absurd hl hn
    | some r0 =>
      simp [merge_or_results, merge_step, hl, update_first_eq_map F qr hU]

/-- C2 witness: a master set holding doc one with rank two receives a
group result for doc one with rank three and ends with rank five. -/
theorem or_merge_adds_ranks_wit :
    (∃ r ∈ [(⟨1, 2⟩ : query_result)], r.docID = (⟨1, 3⟩ : query_result).docID) ∧
    merge_or_results [(⟨1, 2⟩ : query_result)] [⟨1, 3⟩] =
      List.map (fun s => if s.docID = (⟨1, 3⟩ : query_result).docID
        then (⟨s.docID, s.rank + (⟨1, 3⟩ : query_result).rank⟩ : query_result) else s)
        [(⟨1, 2⟩ : query_result)] :=
  ⟨by decide, ((or_merge_adds_ranks [⟨1, 2⟩] ⟨1, 3⟩ (by decide)).2).1 (by decide)⟩

/- Helper lemmas about the AND group evaluation. -/

theorem ominc_assoc (a b c : Option Int) : ominc a (ominc b c) = ominc (ominc a b) c := by
  cases a <;> cases b <;> cases c <;> simp [ominc, min_assoc]

theorem min_count_append (idx : List word_entry) (d : Int) :
    ∀ (ws : List (List Char)), ws ≠ [] → ∀ (t : List Char),
      min_count idx (ws ++ [t]) d = ominc (min_count idx ws d) (word_count idx t d) := by
  intro ws
  induction ws with
  | nil => intro h; exact absurd rfl h
  | cons w ws ih =>
    intro _ t
    cases ws with
    | nil => simp [min_count]
    | cons w2 ws2 =>
      have ihh := ih (by simp) t
      simp only [List.cons_append] at ihh ⊢
      simp only [min_count]
      rw [ihh, ominc_assoc]

theorem sfc_none_filter (ts : List (List Char)) (h : split_first_content ts = none) :
    ts.filter is_content = [] := by
  induction ts with
  | nil => rfl
  | cons t ts ih =>
    by_cases hc : is_content t = true
    · simp [split_first_content, hc] at h
    · simp only [split_first_content, hc, if_false] at h
      simp at hc
      simp [List.filter_cons, hc, ih h]

theorem sfc_some_filter (ts : List (List Char)) (w : List Char) (rest : List (List Char))
    (h : split_first_content ts = some (w, rest)) :
    is_content w = true ∧ ts.filter is_content = w :: rest.filter is_content := by
  induction ts with
  | nil => simp [split_first_content] at h
  | cons t ts ih =>
    by_cases hc : is_content t = true
    · simp [split_first_content, hc] at h
      obtain ⟨h1, h2⟩ := h
      subst h1
      subst h2
      exact ⟨hc, by simp [List.filter_cons, hc]⟩
    · simp only [split_first_content, hc, if_false] at h
      obtain ⟨h1, h2⟩ := ih h
      refine ⟨h1, ?_⟩
      simp at hc
      simp [List.filter_cons, hc, h2]

theorem lookup_word_mem : ∀ (idx : List word_entry) (w : List Char) (e : word_entry),
    lookup_word idx w = some e → e ∈ idx := by
  intro idx
  induction idx with
  | nil => intro w e h; simp [lookup_word] at h
  | cons x xs ih =>
    intro w e h
    by_cases hx : x.word = w
    · simp only [lookup_word, hx, if_pos, Option.some.injEq] at h
      subst h
      exact List.mem_cons_self x xs
    · simp only [lookup_word, hx, if_false] at h
      exact List.mem_cons_of_mem x (ih w e h)

theorem lookup_doc_self (docs : List doc_entry)
    (hU : List.Pairwise (fun x y : doc_entry => x.docID ≠ y.docID) docs) :
    ∀ de ∈ docs, lookup_doc docs de.docID = some de := by
  induction docs with
  | nil => intro de h; simp at h
  | cons e es ih =>
    rcases List.pairwise_cons.mp hU with ⟨he, hes⟩
    intro de hde
    rcases List.mem_cons.mp hde with h | hmem
    · subst h
      simp [lookup_doc]
    · have hne : e.docID ≠ de.docID := he de hmem
      simp only [lookup_doc, hne, if_false]
      exact ih hes de hmem

theorem and_fold_none (idx : List word_entry) (rest : List (List Char)) :
    List.foldl (and_step idx) none rest = none := by
  induction rest with
  | nil => rfl
  | cons t ts ih =>
    rw [List.foldl_cons, show and_step idx none t = none from rfl]
    exact ih

theorem and_fold_absent (idx : List word_entry) :
    ∀ (rest : List (List Char)) (rs : List query_result),
      (∃ t ∈ rest, is_content t = true ∧ lookup_word idx t = none) →
      List.foldl (and_step idx) (some rs) rest = none := by
  intro rest
  induction rest with
  | nil => intro rs h; simp at h
  | cons t ts ih =>
    intro rs h
    obtain ⟨t', ht', hc, hl⟩ := h
    rw [List.foldl_cons]
    rcases List.mem_cons.mp ht' with heq | hmem
    · subst heq
      rw [show and_step idx (some rs) t' = none from by simp [and_step, hc, hl]]
      exact and_fold_none idx ts
    · cases hstep : and_step idx (some rs) t with
      | none => exact and_fold_none idx ts
      | some rs2 => exact ih rs2 ⟨t', hmem, hc, hl⟩

theorem cai_eq (idx : List word_entry) (tokens : List (List Char)) (w : List Char)
    (rest : List (List Char)) (hsfc : split_first_content tokens = some (w, rest)) :
    compute_and_intersection idx tokens =
      match lookup_word idx w with
      | none => none
      | some e => rest.foldl (and_step idx) (some (e.docs.map (fun de => ⟨de.docID, de.count⟩))) := by
  unfold compute_and_intersection
  rw [hsfc]

theorem cai_none (idx : List word_entry) (tokens : List (List Char))
    (hsfc : split_first_content tokens = none) :
    compute_and_intersection idx tokens = none := by
  unfold compute_and_intersection
  rw [hsfc]

theorem cai_absent (idx : List word_entry) (tokens : List (List Char)) (w : List Char)
    (rest : List (List Char)) (hsfc : split_first_content tokens = some (w, rest))
    (hlw : lookup_word idx w = none) :
    compute_and_intersection idx tokens = none := by
  rw [cai_eq idx tokens w rest hsfc, hlw]

theorem cai_found (idx : List word_entry) (tokens : List (List Char)) (w : List Char)
    (rest : List (List Char)) (e : word_entry) (hsfc : split_first_content tokens = some (w, rest))
    (hlw : lookup_word idx w = some e) :
    compute_and_intersection idx tokens =
      rest.foldl (and_step idx) (some (e.docs.map (fun de => ⟨de.docID, de.count⟩))) := by
  rw [cai_eq idx tokens w rest hsfc, hlw]

theorem and_fold_min (idx : List word_entry) :
    ∀ (rest : List (List Char)) (ws : List (List Char)) (rs rs' : List query_result),
      ws ≠ [] →
      (∀ qr ∈ rs, min_count idx ws qr.docID = some qr.rank) →
      List.foldl (and_step idx) (some rs) rest = some rs' →
      ∀ qr ∈ rs', min_count idx (ws ++ rest.filter is_content) qr.docID = some qr.rank := by
  intro rest
  induction rest with
  | nil =>
    intro ws rs rs' hne hinv hfold
    simp only [List.foldl_nil, Option.some.injEq] at hfold
    subst hfold
    simpa using hinv
  | cons t ts ih =>
    intro ws rs rs' hne hinv hfold
    rw [List.foldl_cons] at hfold
    by_cases hct : is_content t = true
    · cases hlw : lookup_word idx t with
      | none =>
        rw [show and_step idx (some rs) t = none from by simp [and_step, hct, hlw],
          and_fold_none idx ts] at hfold
        cases hfold
      | some nw =>
        have hstep : and_step idx (some rs) t = some (rs.filterMap (fun qr =>
            match lookup_doc nw.docs qr.docID with
            | none => none
            | some de => some (⟨qr.docID, if de.count < qr.rank then de.count else qr.rank⟩ : query_result))) := by
          simp [and_step, hct, hlw]
        rw [hstep] at hfold
        have hinv2 : ∀ qr ∈ rs.filterMap (fun qr =>
            match lookup_doc nw.docs qr.docID with
            | none => none
            | some de => some (⟨qr.docID, if de.count < qr.rank then de.count else qr.rank⟩ : query_result)),
            min_count idx (ws ++ [t]) qr.docID = some qr.rank := by
          intro qr2 hqr2
          obtain ⟨qr, hqr, hf⟩ := List.mem_filterMap.mp hqr2
          cases hld : lookup_doc nw.docs qr.docID with
          | none =>
            rw [hld] at hf
            cases hf
          | some de =>
            rw [hld] at hf
            have hqr2eq : (⟨qr.docID, if de.count < qr.rank then de.count else qr.rank⟩ : query_result) = qr2 := by
              injection hf
            subst hqr2eq
            have hwc : word_count idx t qr.docID = some de.count := by
              simp [word_count, hlw, hld]
            show min_count idx (ws ++ [t]) qr.docID =
              some (if de.count < qr.rank then de.count else qr.rank)
            rw [min_count_append idx qr.docID ws hne t, hinv qr hqr, hwc]
            simp only [ominc, Option.some.injEq]
            rcases lt_or_ge de.count qr.rank with hlt | hge
            · rw [if_pos hlt, min_eq_right (le_of_lt hlt)]
            · rw [if_neg (not_lt.mpr hge), min_eq_left hge]
        have hmain := ih (ws ++ [t]) _ rs' (by simp) hinv2 hfold
        intro qr hqr
        have hres := hmain qr hqr
        rw [List.append_assoc] at hres
        simpa [List.filter_cons, hct] using hres
    · have hstep : and_step idx (some rs) t = some rs := by simp [and_step, hct]
      rw [hstep] at hfold
      have hmain := ih ws rs rs' hne hinv hfold
      intro qr hqr
      have hres := hmain qr hqr
      simp at hct
      simpa [List.filter_cons, hct] using hres

/-- C1: over an index whose doc lists have pairwise distinct docIDs,
an AND group evaluates to the empty result as soon as any content
word of the group (the first included) is absent from the index, and
every document surviving the evaluation carries as rank exactly the
minimum of the per document counts of all content words of the
group. -/
theorem and_group_min_rank (idx : List word_entry) (tokens : List (List Char))
    (hwf : ∀ e ∈ idx, List.Pairwise (fun x y : doc_entry => x.docID ≠ y.docID) e.docs) :
    ((∃ t ∈ tokens, is_content t = true ∧ lookup_word idx t = none) →
      compute_and_intersection idx tokens = none) ∧
    (∀ rs, compute_and_intersection idx tokens = some rs →
      ∀ qr ∈ rs, min_count idx (tokens.filter is_content) qr.docID = some qr.rank) := by
  constructor
  · rintro ⟨t, ht, hc, hl⟩
    cases hsfc : split_first_content tokens with
    | none => exact cai_none idx tokens hsfc
    | some p =>
      obtain ⟨w, rest⟩ := p
      obtain ⟨hcw, hfil⟩ := sfc_some_filter tokens w rest hsfc
      have htf : t ∈ tokens.filter is_content := List.mem_filter.mpr ⟨ht, hc⟩
      rw [hfil] at htf
      rcases List.mem_cons.mp htf with heq | hmem
      · subst heq
        exact cai_absent idx tokens t rest hsfc hl
      · have htr : t ∈ rest := (List.mem_filter.mp hmem).1
        cases hlw : lookup_word idx w with
        | none => exact cai_absent idx tokens w rest hsfc hlw
        | some e =>
          rw [cai_found idx tokens w rest e hsfc hlw]
          exact and_fold_absent idx rest _ ⟨t, htr, hc, hl⟩
  · intro rs hrs qr hqr
    cases hsfc : split_first_content tokens with
    | none =>
      rw [cai_none idx tokens hsfc] at hrs
      cases hrs
    | some p =>
      obtain ⟨w, rest⟩ := p
      obtain ⟨hcw, hfil⟩ := sfc_some_filter tokens w rest hsfc
      cases hlw : lookup_word idx w with
      | none =>
        rw [cai_absent idx tokens w rest hsfc hlw] at hrs
        cases hrs
      | some e =>
        rw [cai_found idx tokens w rest e hsfc hlw] at hrs
        have hseed : ∀ q ∈ e.docs.map (fun de => (⟨de.docID, de.count⟩ : query_result)),
            min_count idx [w] q.docID = some q.rank := by
          intro q hq
          obtain ⟨de, hde, hqe⟩ := List.mem_map.mp hq
          subst hqe
          have hself := lookup_doc_self e.docs (hwf e (lookup_word_mem idx w e hlw)) de hde
          show min_count idx [w] de.docID = some de.count
          simp [min_count, word_count, hlw, hself]
        have hmain := and_fold_min idx rest [w] _ rs (by simp) hseed hrs qr hqr
        rw [hfil]
        simpa using hmain

/-- C1 witness: with cat at count two and dog at count five in doc
one, the group cat and dog returns doc one and its rank two is the
minimum of the two counts. -/
theorem and_group_min_rank_wit :
    compute_and_intersection idxC [catTok, andTok, dogTok] = some [⟨1, 2⟩] ∧
    min_count idxC (List.filter is_content [catTok, andTok, dogTok]) (1 : Int) = some 2 := by
  constructor
  · decide
  · exact (and_group_min_rank idxC [catTok, andTok, dogTok] (by decide)).2 [⟨1, 2⟩]
      (by decide) ⟨1, 2⟩ (by decide)

/- Helper lemmas about index construction. -/

theorem word_count_cons (e : word_entry) (es : List word_entry) (w : List Char) (d : Int) :
    word_count (e :: es) w d =
      if e.word = w then (lookup_doc e.docs d).map doc_entry.count else word_count es w d := by
  by_cases h : e.word = w
  · simp only [word_count, lookup_word, h, if_pos]
    cases lookup_doc e.docs d <;> simp
  · simp only [word_count, lookup_word, h, if_false]

theorem record_doc_self (docs : List doc_entry) (d : Int) :
    lookup_doc (record_doc docs d) d =
      some ⟨d, ((lookup_doc docs d).map doc_entry.count).getD 0 + 1⟩ := by
  induction docs with
  | nil => simp [record_doc, lookup_doc]
  | cons e es ih =>
    by_cases h : e.docID = d
    · simp [record_doc, h, lookup_doc]
    · simp [record_doc, h, lookup_doc, ih]

theorem record_doc_other (docs : List doc_entry) (d d' : Int) (hne : d' ≠ d) :
    lookup_doc (record_doc docs d) d' = lookup_doc docs d' := by
  have hdd : ¬ d = d' := fun hh => hne hh.symm
  induction docs with
  | nil => simp [record_doc, lookup_doc, hdd]
  | cons e es ih =>
    by_cases h : e.docID = d
    · have hne2 : ¬ e.docID = d' := by rw [h]; exact hdd
      simp [record_doc, h, lookup_doc, hne2, hdd]
    · by_cases h2 : e.docID = d'
      · simp [record_doc, h, lookup_doc, h2, hne]
      · simp [record_doc, h, lookup_doc, h2, ih]

theorem add_occ_self (w : List Char) (d : Int) : ∀ (idx : List word_entry),
    word_count (add_occurrence idx w d) w d = some ((word_count idx w d).getD 0 + 1) := by
  intro idx
  induction idx with
  | nil => simp [add_occurrence, word_count, lookup_word, lookup_doc]
  | cons e es ih =>
    by_cases h : e.word = w
    · rw [show add_occurrence (e :: es) w d = ⟨e.word, record_doc e.docs d⟩ :: es from by
        simp [add_occurrence, h]]
      rw [word_count_cons, word_count_cons]
      simp [h, record_doc_self]
    · rw [show add_occurrence (e :: es) w d = e :: add_occurrence es w d from by
        simp [add_occurrence, h]]
      rw [word_count_cons, word_count_cons, if_neg h, if_neg h]
      exact ih

theorem add_occ_other (w w' : List Char) (d d' : Int) (hne : w' ≠ w ∨ d' ≠ d) :
    ∀ (idx : List word_entry),
      word_count (add_occurrence idx w d) w' d' = word_count idx w' d' := by
  intro idx
  induction idx with
  | nil =>
    rcases hne with h | h
    · simp [add_occurrence, word_count, lookup_word, Ne.symm h]
    · by_cases hw : w = w'
      · simp [add_occurrence, word_count, lookup_word, lookup_doc, hw, Ne.symm h]
      · simp [add_occurrence, word_count, lookup_word, hw]
  | cons e es ih =>
    by_cases hew : e.word = w
    · rw [show add_occurrence (e :: es) w d = ⟨e.word, record_doc e.docs d⟩ :: es from by
        simp [add_occurrence, hew]]
      by_cases hew' : e.word = w'
      · have hd : d' ≠ d := by
          rcases hne with h | h
          · exact absurd (hew'.symm.trans hew) h
          · exact h
        rw [word_count_cons, word_count_cons, if_pos hew', if_pos hew',
          record_doc_other e.docs d d' hd]
      · rw [word_count_cons, word_count_cons, if_neg hew', if_neg hew']
    · rw [show add_occurrence (e :: es) w d = e :: add_occurrence es w d from by
        simp [add_occurrence, hew]]
      by_cases hew' : e.word = w'
      · rw [word_count_cons, word_count_cons, if_pos hew', if_pos hew']
      · rw [word_count_cons, word_count_cons, if_neg hew', if_neg hew']
        exact ih

theorem countW_nonneg (w : List Char) : ∀ l, 0 ≤ countW w l := by
  intro l
  induction l with
  | nil => simp [countW]
  | cons x xs ih =>
    simp only [countW]
    by_cases h : x = w
    · rw [if_pos h]; omega
    · rw [if_neg h]; omega

theorem opt_add_succ (o : Option Int) (k : Int) (hk : 0 ≤ k) :
    opt_add (some (o.getD 0 + 1)) k = opt_add o (k + 1) := by
  by_cases h : k = 0
  · subst h; simp [opt_add]
  · have h1 : k + 1 ≠ 0 := by omega
    simp only [opt_add, if_neg h, if_neg h1, Option.getD_some]
    congr 1
    omega

theorem process_doc_count (d : Int) :
    ∀ (ws : List (List Char)) (idx : List word_entry) (w : List Char),
      word_count (process_doc idx d ws) w d =
        opt_add (word_count idx w d) (countW w (ws.filterMap NormalizeWord)) := by
  intro ws
  induction ws with
  | nil => intro idx w; simp [process_doc, countW, opt_add]
  | cons raw ws ih =>
    intro idx w
    cases hn : NormalizeWord raw with
    | none =>
      rw [show process_doc idx d (raw :: ws) = process_doc idx d ws from by
        simp [process_doc, List.foldl_cons, hn]]
      rw [show (raw :: ws).filterMap NormalizeWord = ws.filterMap NormalizeWord from by
        simp [List.filterMap_cons, hn]]
      exact ih idx w
    | some nw =>
      rw [show process_doc idx d (raw :: ws) = process_doc (add_occurrence idx nw d) d ws from by
        simp [process_doc, List.foldl_cons, hn]]
      rw [show (raw :: ws).filterMap NormalizeWord = nw :: ws.filterMap NormalizeWord from by
        simp [List.filterMap_cons, hn]]
      rw [ih (add_occurrence idx nw d) w]
      by_cases hw : nw = w
      · subst hw
        rw [add_occ_self nw d idx, opt_add_succ _ _ (countW_nonneg _ _)]
        congr 1
        rw [show countW nw (nw :: ws.filterMap NormalizeWord)
          = 1 + countW nw (ws.filterMap NormalizeWord) from by simp [countW]]
        ring
      · rw [add_occ_other nw w d d (Or.inl (fun h => hw h.symm)) idx]
        congr 1
        simp [countW, hw]

theorem process_doc_other (d d' : Int) (hne : d' ≠ d) :
    ∀ (ws : List (List Char)) (idx : List word_entry) (w : List Char),
      word_count (process_doc idx d ws) w d' = word_count idx w d' := by
  intro ws
  induction ws with
  | nil => intro idx w; simp [process_doc]
  | cons raw ws ih =>
    intro idx w
    cases hn : NormalizeWord raw with
    | none =>
      rw [show process_doc idx d (raw :: ws) = process_doc idx d ws from by
        simp [process_doc, List.foldl_cons, hn]]
      exact ih idx w
    | some nw =>
      rw [show process_doc idx d (raw :: ws) = process_doc (add_occurrence idx nw d) d ws from by
        simp [process_doc, List.foldl_cons, hn]]
      rw [ih (add_occurrence idx nw d) w, add_occ_other nw w d d' (Or.inr hne) idx]

theorem record_doc_docID (docs : List doc_entry) (d : Int) :
    ∀ b ∈ record_doc docs d, (∃ a ∈ docs, b.docID = a.docID) ∨ b.docID = d := by
  induction docs with
  | nil =>
    intro b hb
    simp [record_doc] at hb
    right
    rw [hb]
  | cons e es ih =>
    intro b hb
    by_cases h : e.docID = d
    · rw [show record_doc (e :: es) d = ⟨e.docID, e.count + 1⟩ :: es from by
        simp [record_doc, h]] at hb
      rcases List.mem_cons.mp hb with heq | hmem
      · left
        exact ⟨e, List.mem_cons_self e es, by rw [heq]⟩
      · left
        exact ⟨b, List.mem_cons_of_mem e hmem, rfl⟩
    · rw [show record_doc (e :: es) d = e :: record_doc es d from by
        simp [record_doc, h]] at hb
      rcases List.mem_cons.mp hb with heq | hmem
      · left
        exact ⟨e, List.mem_cons_self e es, by rw [heq]⟩
      · rcases ih b hmem with ⟨a, ha, hba⟩ | hbd
        · left
          exact ⟨a, List.mem_cons_of_mem e ha, hba⟩
        · right
          exact hbd

theorem record_doc_sorted (docs : List doc_entry) (d : Int)
    (hs : List.Pairwise (fun a b : doc_entry => a.docID < b.docID) docs)
    (hle : ∀ de ∈ docs, de.docID ≤ d) :
    List.Pairwise (fun a b : doc_entry => a.docID < b.docID) (record_doc docs d) ∧
      ∀ de ∈ record_doc docs d, de.docID ≤ d := by
  induction docs with
  | nil =>
    constructor
    · simp [record_doc]
    · intro de hde
      simp [record_doc] at hde
      rw [hde]
  | cons e es ih =>
    rcases List.pairwise_cons.mp hs with ⟨he, hes⟩
    have hletail : ∀ de ∈ es, de.docID ≤ d := fun de hde => hle de (List.mem_cons_of_mem e hde)
    by_cases h : e.docID = d
    · rw [show record_doc (e :: es) d = ⟨e.docID, e.count + 1⟩ :: es from by
        simp [record_doc, h]]
      constructor
      · exact List.pairwise_cons.mpr ⟨fun b hb => he b hb, hes⟩
      · intro de hde
        rcases List.mem_cons.mp hde with heq | hmem
        · rw [heq]
          exact hle e (List.mem_cons_self e es)
        · exact hletail de hmem
    · obtain ⟨ih1, ih2⟩ := ih hes hletail
      rw [show record_doc (e :: es) d = e :: record_doc es d from by
        simp [record_doc, h]]
      constructor
      · refine List.pairwise_cons.mpr ⟨?_, ih1⟩
        intro b hb
        rcases record_doc_docID es d b hb with ⟨a, ha, hba⟩ | hbd
        · rw [hba]
          exact he a ha
        · rw [hbd]
          have h1 : e.docID ≤ d := hle e (List.mem_cons_self e es)
          omega
      · intro de hde
        rcases List.mem_cons.mp hde with heq | hmem
        · rw [heq]
          exact hle e (List.mem_cons_self e es)
        · exact ih2 de hmem

theorem add_occ_inv (w : List Char) (d : Int) : ∀ (idx : List word_entry),
    idx_inv d idx → idx_inv d (add_occurrence idx w d) := by
  intro idx
  induction idx with
  | nil =>
    intro _ e he
    simp [add_occurrence] at he
    subst he
    constructor
    · simp
    · intro de hde
      simp at hde
      rw [hde]
  | cons x xs ih =>
    intro h e he
    have hx := h x (List.mem_cons_self x xs)
    have hxs : idx_inv d xs := fun e' he' => h e' (List.mem_cons_of_mem x he')
    by_cases hxw : x.word = w
    · rw [show add_occurrence (x :: xs) w d = ⟨x.word, record_doc x.docs d⟩ :: xs from by
        simp [add_occurrence, hxw]] at he
      rcases List.mem_cons.mp he with heq | hmem
      · subst heq
        exact record_doc_sorted x.docs d hx.1 hx.2
      · exact hxs e hmem
    · rw [show add_occurrence (x :: xs) w d = x :: add_occurrence xs w d from by
        simp [add_occurrence, hxw]] at he
      rcases List.mem_cons.mp he with heq | hmem
      · subst heq
        exact hx
      · exact ih hxs e hmem

theorem process_doc_inv (d : Int) : ∀ (ws : List (List Char)) (idx : List word_entry),
    idx_inv d idx → idx_inv d (process_doc idx d ws) := by
  intro ws
  induction ws with
  | nil =>
    intro idx h
    simpa [process_doc] using h
  | cons raw ws ih =>
    intro idx h
    cases hn : NormalizeWord raw with
    | none =>
      rw [show process_doc idx d (raw :: ws) = process_doc idx d ws from by
        simp [process_doc, List.foldl_cons, hn]]
      exact ih idx h
    | some nw =>
      rw [show process_doc idx d (raw :: ws) = process_doc (add_occurrence idx nw d) d ws from by
        simp [process_doc, List.foldl_cons, hn]]
      exact ih _ (add_occ_inv nw d idx h)

theorem idx_inv_mono (d d' : Int) (h : d ≤ d') (idx : List word_entry) (hi : idx_inv d idx) :
    idx_inv d' idx := by
  intro e he
  obtain ⟨h1, h2⟩ := hi e he
  exact ⟨h1, fun de hde => le_trans (h2 de hde) h⟩

theorem lookup_doc_none_of_gt (docs : List doc_entry) (m d : Int) (hlt : m < d)
    (hle : ∀ de ∈ docs, de.docID ≤ m) : lookup_doc docs d = none := by
  induction docs with
  | nil => rfl
  | cons e es ih =>
    have h1 : e.docID ≤ m := hle e (List.mem_cons_self e es)
    have hne : ¬ e.docID = d := by omega
    simp only [lookup_doc, hne, if_false]
    exact ih (fun de hde => hle de (List.mem_cons_of_mem e hde))

theorem word_count_none_of_inv (m d : Int) (hlt : m < d) : ∀ (idx : List word_entry),
    idx_inv m idx → ∀ w, word_count idx w d = none := by
  intro idx
  induction idx with
  | nil => intro _ w; rfl
  | cons e es ih =>
    intro hi w
    have he := hi e (List.mem_cons_self e es)
    have hes : idx_inv m es := fun e' h' => hi e' (List.mem_cons_of_mem e h')
    by_cases h : e.word = w
    · rw [word_count_cons, if_pos h, lookup_doc_none_of_gt e.docs m d hlt he.2]
      rfl
    · rw [word_count_cons, if_neg h]
      exact ih hes w

theorem build_from_sorted : ∀ (rest : List (List (List Char))) (d : Int) (idx : List word_entry),
    idx_inv (d - 1) idx → idx_inv (d + rest.length - 1) (build_from d rest idx) := by
  intro rest
  induction rest with
  | nil =>
    intro d idx h
    simpa using h
  | cons ws rest ih =>
    intro d idx h
    have h1 : idx_inv d idx := idx_inv_mono (d - 1) d (by omega) idx h
    have h2 : idx_inv d (process_doc idx d ws) := process_doc_inv d ws idx h1
    have h3 : idx_inv ((d + 1) - 1) (process_doc idx d ws) := by
      have harith : (d + 1) - 1 = d := by ring
      rw [harith]
      exact h2
    have h4 := ih (d + 1) (process_doc idx d ws) h3
    have harith2 : d + ((ws :: rest).length : Int) - 1 = (d + 1) + (rest.length : Int) - 1 := by
      push_cast [List.length_cons]
      ring
    rw [show build_from d (ws :: rest) idx = build_from (d + 1) rest (process_doc idx d ws)
      from rfl]
    rw [harith2]
    exact h4

theorem build_from_count : ∀ (rest : List (List (List Char))) (d : Int) (idx : List word_entry),
    idx_inv (d - 1) idx →
    (∀ (j : Nat) ws, rest.get? j = some ws → ∀ w,
      word_count (build_from d rest idx) w (d + j) =
        opt_add none (countW w (ws.filterMap NormalizeWord))) ∧
    (∀ (d' : Int) (w : List Char), d' < d →
      word_count (build_from d rest idx) w d' = word_count idx w d') := by
  intro rest
  induction rest with
  | nil =>
    intro d idx _
    constructor
    · intro j ws hj
      simp at hj
    · intro d' w _
      rfl
  | cons ws0 rest ih =>
    intro d idx h
    have h1 : idx_inv d idx := idx_inv_mono (d - 1) d (by omega) idx h
    have h2 : idx_inv d (process_doc idx d ws0) := process_doc_inv d ws0 idx h1
    have h3 : idx_inv ((d + 1) - 1) (process_doc idx d ws0) := by
      have harith : (d + 1) - 1 = d := by ring
      rw [harith]
      exact h2
    obtain ⟨ihc, ihp⟩ := ih (d + 1) (process_doc idx d ws0) h3
    have hbf : build_from d (ws0 :: rest) idx = build_from (d + 1) rest (process_doc idx d ws0) :=
      rfl
    constructor
    · intro j ws hj w
      cases j with
      | zero =>
        have hws : ws0 = ws := by simpa using hj
        subst hws
        rw [hbf]
        have hd0 : d + ((0 : Nat) : Int) = d := by simp
        rw [hd0, ihp d w (by omega), process_doc_count d ws0 idx w,
          word_count_none_of_inv (d - 1) d (by omega) idx h w]
      | succ j =>
        rw [hbf]
        have hj' : rest.get? j = some ws := by simpa using hj
        have harith : d + ((j + 1 : Nat) : Int) = (d + 1) + (j : Int) := by
          push_cast
          ring
        rw [harith]
        exact ihc j ws hj' w
    · intro d' w hd'
      rw [hbf, ihp d' w (by omega), process_doc_other d d' (by omega) ws0 idx w]

/-- C9: indexing the corpus documents in docID order starting at one,
the stored count of a normalized word for document i plus one equals
the number of occurrences of that word in the normalized word stream
of that document (the entry being absent exactly when there is no
occurrence), and every doc list of the built index has non decreasing
docIDs. The corpus is modeled as the list of documents the driver
loop visits before the first missing docID ends it. -/
theorem build_index_counts (docs : List (List (List Char))) :
    (∀ (i : Nat) ws, docs.get? i = some ws → ∀ raw nw, NormalizeWord raw = some nw →
      word_count (build_index docs) nw ((i : Int) + 1) =
        (if countW nw (ws.filterMap NormalizeWord) = 0 then none
         else some (countW nw (ws.filterMap NormalizeWord)))) ∧
    (∀ e ∈ build_index docs, List.Pairwise (fun a b : doc_entry => a.docID ≤ b.docID) e.docs) := by
  have hempty : idx_inv ((1 : Int) - 1) [] := by
    intro e he
    simp at he
  constructor
  · intro i ws hi raw nw _
    obtain ⟨hc, _⟩ := build_from_count docs 1 [] hempty
    have h := hc i ws hi nw
    have harith : (1 : Int) + (i : Int) = (i : Int) + 1 := by ring
    rw [harith] at h
    rw [show build_index docs = build_from 1 docs [] from rfl, h]
    by_cases hk : countW nw (ws.filterMap NormalizeWord) = 0
    · simp [opt_add, hk]
    · simp [opt_add, hk]
  · intro e he
    have hs := build_from_sorted docs 1 [] hempty
    obtain ⟨h1, _⟩ := hs e he
    exact h1.imp (fun hab => le_of_lt hab)

/-- C9 witness: indexing two documents, the first containing Cat cat
dog and the second cat, stores the count two for cat in doc one. -/
theorem build_index_counts_wit :
    NormalizeWord ['C', 'a', 't'] = some catTok ∧
    word_count (build_index D9) catTok ((0 : Int) + 1) = some 2 := by
  refine ⟨by decide, ?_⟩
  have h := (build_index_counts D9).1 0 [['C', 'a', 't'], ['c', 'a', 't'], ['d', 'o', 'g']] rfl
    ['C', 'a', 't'] catTok (by decide)
  have hcast : ((0 : Nat) : Int) + 1 = (0 : Int) + 1 := by norm_num
  rw [hcast] at h
  exact h.trans (by decide)

/- Helper lemmas about decimal rendering and parsing. -/

theorem digitChar_digit : ∀ k, k < 10 → isDigitC (digitChar k) = true := by decide

theorem digitChar_val : ∀ k, k < 10 → digitVal (digitChar k) = k := by decide

theorem digitChar_not_space : ∀ k, k < 10 → cIsSpace (digitChar k) = false := by decide

theorem digitChar_signs : ∀ k, k < 10 →
    digitChar k ≠ '-' ∧ digitChar k ≠ '+' ∧ digitChar k ≠ '\n' := by decide

theorem natToDigitsFuel_congr : ∀ (f g n : Nat), n < f → n < g →
    natToDigitsFuel f n = natToDigitsFuel g n := by
  intro f
  induction f with
  | zero =>
    intro g n h _
    omega
  | succ f ih =>
    intro g n hf hg
    cases g with
    | zero => omega
    | succ g =>
      show natToDigitsFuel (f + 1) n = natToDigitsFuel (g + 1) n
      simp only [natToDigitsFuel]
      by_cases h : n < 10
      · rw [if_pos h, if_pos h]
      · rw [if_neg h, if_neg h, ih g (n / 10) (by omega) (by omega)]

theorem natToDigits_unfold (n : Nat) : natToDigits n =
    if n < 10 then [digitChar n] else natToDigits (n / 10) ++ [digitChar (n % 10)] := by
  show natToDigitsFuel (n + 1) n = _
  simp only [natToDigitsFuel]
  by_cases h : n < 10
  · rw [if_pos h, if_pos h]
  · rw [if_neg h, if_neg h,
      natToDigitsFuel_congr n (n / 10 + 1) (n / 10) (by omega) (by omega)]
    rfl

theorem natToDigits_ne_nil (n : Nat) : natToDigits n ≠ [] := by
  rw [natToDigits_unfold]
  by_cases h : n < 10
  · rw [if_pos h]
    simp
  · rw [if_neg h]
    simp

theorem natToDigits_chars (n : Nat) : ∀ c ∈ natToDigits n, ∃ k, k < 10 ∧ c = digitChar k := by
  induction n using Nat.strong_induction_on with
  | _ n ih =>
    intro c hc
    rw [natToDigits_unfold] at hc
    by_cases h : n < 10
    · rw [if_pos h] at hc
      simp at hc
      exact ⟨n, h, hc⟩
    · rw [if_neg h] at hc
      rcases List.mem_append.mp hc with h1 | h2
      · exact ih (n / 10) (Nat.div_lt_self (by omega) (by omega)) c h1
      · simp at h2
        exact ⟨n % 10, Nat.mod_lt n (by omega), h2⟩

theorem natToDigits_foldl (n : Nat) : ∀ a : Nat,
    List.foldl (fun x c => 10 * x + digitVal c) a (natToDigits n) =
      a * 10 ^ (natToDigits n).length + n := by
  induction n using Nat.strong_induction_on with
  | _ n ih =>
    intro a
    rw [natToDigits_unfold]
    by_cases h : n < 10
    · rw [if_pos h]
      simp only [List.foldl_cons, List.foldl_nil, List.length_singleton, pow_one]
      rw [digitChar_val n h]
      ring
    · rw [if_neg h]
      rw [List.foldl_append, ih (n / 10) (Nat.div_lt_self (by omega) (by omega)) a]
      simp only [List.foldl_cons, List.foldl_nil, List.length_append, List.length_singleton]
      rw [digitChar_val (n % 10) (Nat.mod_lt n (by omega))]
      have hmod : 10 * (n / 10) + n % 10 = n := Nat.div_add_mod n 10
      calc 10 * (a * 10 ^ (natToDigits (n / 10)).length + n / 10) + n % 10
          = a * (10 ^ (natToDigits (n / 10)).length * 10) + (10 * (n / 10) + n % 10) := by ring
        _ = a * 10 ^ ((natToDigits (n / 10)).length + 1) + n := by rw [pow_succ, hmod]

theorem natToDigits_head (n : Nat) : ∃ k ds, k < 10 ∧ natToDigits n = digitChar k :: ds := by
  cases hh : natToDigits n with
  | nil => exact absurd hh (natToDigits_ne_nil n)
  | cons c cs =>
    have hc : c ∈ natToDigits n := by
      rw [hh]
      exact List.mem_cons_self c cs
    obtain ⟨k, hk, hck⟩ := natToDigits_chars n c hc
    refine ⟨k, cs, hk, ?_⟩
    rw [← hck]

theorem parseDigitsAcc_append : ∀ (ds : List Char), (∀ c ∈ ds, isDigitC c = true) →
    ∀ (rest : List Char), not_digit_head rest → ∀ a,
      parseDigitsAcc a (ds ++ rest) = (ds.foldl (fun x c => 10 * x + digitVal c) a, rest) := by
  intro ds
  induction ds with
  | nil =>
    intro _ rest hr a
    cases rest with
    | nil => rfl
    | cons c cs =>
      have hc : isDigitC c = false := hr
      simp [parseDigitsAcc, hc]
  | cons dch ds ih =>
    intro hds rest hr a
    have hd := hds dch (List.mem_cons_self dch ds)
    rw [show (dch :: ds) ++ rest = dch :: (ds ++ rest) from rfl]
    rw [show parseDigitsAcc a (dch :: (ds ++ rest))
      = parseDigitsAcc (10 * a + digitVal dch) (ds ++ rest) from by simp [parseDigitsAcc, hd]]
    rw [List.foldl_cons]
    exact ih (fun c hc => hds c (List.mem_cons_of_mem dch hc)) rest hr (10 * a + digitVal dch)

theorem parse_natToDigits (n : Nat) (rest : List Char) (hr : not_digit_head rest) :
    parseDigitsAcc 0 (natToDigits n ++ rest) = (n, rest) := by
  have hds : ∀ c ∈ natToDigits n, isDigitC c = true := by
    intro c hc
    obtain ⟨k, hk, hck⟩ := natToDigits_chars n c hc
    rw [hck]
    exact digitChar_digit k hk
  rw [parseDigitsAcc_append (natToDigits n) hds rest hr 0, natToDigits_foldl n 0]
  simp

theorem parseSignedInt_intToDec (i : Int) (rest : List Char) (hr : not_digit_head rest) :
    parseSignedInt (intToDec i ++ rest) = some (i, rest) := by
  obtain ⟨k, ds, hk, hnd⟩ := natToDigits_head i.natAbs
  have h1 : isDigitC (digitChar k) = true := digitChar_digit k hk
  have hparse : parseDigitsAcc 0 (digitChar k :: (ds ++ rest)) = (i.natAbs, rest) := by
    rw [show digitChar k :: (ds ++ rest) = (digitChar k :: ds) ++ rest from rfl, ← hnd]
    exact parse_natToDigits i.natAbs rest hr
  by_cases hneg : i < 0
  · rw [show intToDec i = '-' :: natToDigits i.natAbs from by simp [intToDec, hneg]]
    rw [List.cons_append, hnd, List.cons_append]
    have hstep : parseSignedInt ('-' :: digitChar k :: (ds ++ rest)) =
        some (-(((parseDigitsAcc 0 (digitChar k :: (ds ++ rest))).1 : Int)),
          (parseDigitsAcc 0 (digitChar k :: (ds ++ rest))).2) := by
      simp [parseSignedInt, h1]
    rw [hstep, hparse]
    show some (-((i.natAbs : Int)), rest) = some (i, rest)
    have hai : -((i.natAbs : Int)) = i := by omega
    rw [hai]
  · rw [show intToDec i = natToDigits i.natAbs from by simp [intToDec, hneg]]
    rw [hnd, List.cons_append]
    have h2 : digitChar k ≠ '-' := (digitChar_signs k hk).1
    have h3 : digitChar k ≠ '+' := (digitChar_signs k hk).2.1
    have hstep : parseSignedInt (digitChar k :: (ds ++ rest)) =
        some ((((parseDigitsAcc 0 (digitChar k :: (ds ++ rest))).1 : Int)),
          (parseDigitsAcc 0 (digitChar k :: (ds ++ rest))).2) := by
      simp [parseSignedInt, h1, h2, h3]
    rw [hstep, hparse]
    show some (((i.natAbs : Int)), rest) = some (i, rest)
    have hai : ((i.natAbs : Int)) = i := by omega
    rw [hai]

theorem skip_ws_cons_of_space (c : Char) (cs : List Char) (h : cIsSpace c = true) :
    skip_ws (c :: cs) = skip_ws cs := by
  simp [skip_ws, h]

theorem skip_ws_cons_of_not_space (c : Char) (cs : List Char) (h : cIsSpace c = false) :
    skip_ws (c :: cs) = c :: cs := by
  simp [skip_ws, h]

theorem intToDec_head_not_space (i : Int) :
    ∃ c cs, intToDec i = c :: cs ∧ cIsSpace c = false := by
  obtain ⟨k, ds, hk, hnd⟩ := natToDigits_head i.natAbs
  by_cases hneg : i < 0
  · exact ⟨'-', natToDigits i.natAbs, by simp [intToDec, hneg], by decide⟩
  · exact ⟨digitChar k, ds, by simp [intToDec, hneg, hnd], digitChar_not_space k hk⟩

theorem parseIntTok_space (v : Int) (rest : List Char) (hr : not_digit_head rest) :
    parseIntTok ((' ' :: intToDec v) ++ rest) = some (v, rest) := by
  obtain ⟨c, cs, hdec, hcns⟩ := intToDec_head_not_space v
  unfold parseIntTok
  rw [List.cons_append, skip_ws_cons_of_space ' ' _ (by decide)]
  rw [hdec, List.cons_append, skip_ws_cons_of_not_space c _ hcns, ← List.cons_append, ← hdec]
  exact parseSignedInt_intToDec v rest hr

theorem parsePair_some (s : List Char) (v1 v2 : Int) (r1 r2 : List Char)
    (h1 : parseIntTok s = some (v1, r1)) (h2 : parseIntTok r1 = some (v2, r2)) :
    parsePair s = some (v1, v2, r2) := by
  unfold parsePair
  rw [h1]
  show (match parseIntTok r1 with
    | none => none
    | some (c, r2) => some (v1, c, r2)) = some (v1, v2, r2)
  rw [h2]

theorem parsePair_none1 (s : List Char) (h : parseIntTok s = none) : parsePair s = none := by
  unfold parsePair
  rw [h]

theorem parsePair_save_doc (de : doc_entry) (rest : List Char) (hr : not_digit_head rest) :
    parsePair (save_doc de ++ rest) = some (de.docID, de.count, rest) := by
  have hassoc : save_doc de ++ rest =
      (' ' :: intToDec de.docID) ++ ((' ' :: intToDec de.count) ++ rest) := by
    simp [save_doc]
  have hsp : not_digit_head ((' ' :: intToDec de.count) ++ rest) := by
    show isDigitC ' ' = false
    decide
  rw [hassoc]
  exact parsePair_some _ de.docID de.count _ rest
    (parseIntTok_space de.docID _ hsp) (parseIntTok_space de.count rest hr)

theorem parseDigitsAcc_len : ∀ (s : List Char) (a : Nat),
    (parseDigitsAcc a s).2.length ≤ s.length := by
  intro s
  induction s with
  | nil => intro a; simp [parseDigitsAcc]
  | cons c cs ih =>
    intro a
    by_cases h : isDigitC c = true
    · rw [show parseDigitsAcc a (c :: cs) = parseDigitsAcc (10 * a + digitVal c) cs from by
        simp [parseDigitsAcc, h]]
      exact le_trans (ih _) (by simp)
    · rw [show parseDigitsAcc a (c :: cs) = (a, c :: cs) from by simp [parseDigitsAcc, h]]

theorem skip_ws_len : ∀ (s : List Char), (skip_ws s).length ≤ s.length := by
  intro s
  induction s with
  | nil => simp [skip_ws]
  | cons c cs ih =>
    cases h : cIsSpace c with
    | true =>
      rw [skip_ws_cons_of_space c cs h]
      exact le_trans ih (by simp)
    | false => rw [skip_ws_cons_of_not_space c cs h]

theorem parseSignedInt_len (s : List Char) (v : Int) (r : List Char)
    (h : parseSignedInt s = some (v, r)) : r.length < s.length := by
  cases s with
  | nil => simp [parseSignedInt] at h
  | cons c cs =>
    by_cases h1 : c = '-'
    · subst h1
      cases cs with
      | nil => simp [parseSignedInt] at h
      | cons d ds =>
        by_cases h2 : isDigitC d = true
        · simp only [parseSignedInt, if_pos rfl, h2, if_true, Option.some.injEq,
            Prod.mk.injEq] at h
          have hr : r = (parseDigitsAcc 0 (d :: ds)).2 := h.2.symm
          have hlen : (parseDigitsAcc 0 (d :: ds)).2.length ≤ ds.length := by
            rw [show parseDigitsAcc 0 (d :: ds) = parseDigitsAcc (10 * 0 + digitVal d) ds from by
              simp [parseDigitsAcc, h2]]
            exact parseDigitsAcc_len ds _
          rw [hr]
          simp only [List.length_cons]
          omega
        · simp [parseSignedInt, h2] at h
    · by_cases h3 : c = '+'
      · subst h3
        cases cs with
        | nil => simp [parseSignedInt] at h
        | cons d ds =>
          by_cases h2 : isDigitC d = true
          · simp only [parseSignedInt, if_pos rfl, h2, if_true] at h
            injection h with hpair
            injection hpair with hfst hsnd
            have hr : r = (parseDigitsAcc 0 (d :: ds)).2 := hsnd.symm
            have hlen : (parseDigitsAcc 0 (d :: ds)).2.length ≤ ds.length := by
              rw [show parseDigitsAcc 0 (d :: ds) = parseDigitsAcc (10 * 0 + digitVal d) ds from by
                simp [parseDigitsAcc, h2]]
              exact parseDigitsAcc_len ds _
            rw [hr]
            simp only [List.length_cons]
            omega
          · simp [parseSignedInt, h2] at h
      · by_cases h2 : isDigitC c = true
        · simp only [parseSignedInt, h1, h3, h2, if_false, if_true, Option.some.injEq,
            Prod.mk.injEq] at h
          have hr : r = (parseDigitsAcc 0 (c :: cs)).2 := h.2.symm
          have hlen : (parseDigitsAcc 0 (c :: cs)).2.length ≤ cs.length := by
            rw [show parseDigitsAcc 0 (c :: cs) = parseDigitsAcc (10 * 0 + digitVal c) cs from by
              simp [parseDigitsAcc, h2]]
            exact parseDigitsAcc_len cs _
          rw [hr]
          simp only [List.length_cons]
          omega
        · simp [parseSignedInt, h1, h3, h2] at h

theorem parseIntTok_len (s : List Char) (v : Int) (r : List Char)
    (h : parseIntTok s = some (v, r)) : r.length < s.length := by
  unfold parseIntTok at h
  exact lt_of_lt_of_le (parseSignedInt_len (skip_ws s) v r h) (skip_ws_len s)

theorem parsePair_len (s : List Char) (d c : Int) (r : List Char)
    (h : parsePair s = some (d, c, r)) : r.length < s.length := by
  cases h1 : parseIntTok s with
  | none =>
    rw [parsePair_none1 s h1] at h
    cases h
  | some p =>
    obtain ⟨v1, r1⟩ := p
    cases h2 : parseIntTok r1 with
    | none =>
      unfold parsePair at h
      rw [h1] at h
      have hred : (match parseIntTok r1 with
          | none => none
          | some (c, r2) => some (v1, c, r2)) = some (d, c, r) := h
      rw [h2] at hred
      cases hred
    | some q =>
      obtain ⟨v2, r2⟩ := q
      rw [parsePair_some s v1 v2 r1 r2 h1 h2] at h
      injection h with htr
      injection htr with he1 htr2
      injection htr2 with he2 he3
      have l1 := parseIntTok_len s v1 r1 h1
      have l2 := parseIntTok_len r1 v2 r2 h2
      rw [← he3]
      omega

theorem parsePairsFuel_congr : ∀ (n m : Nat) (s : List Char),
    s.length < n → s.length < m → parsePairsFuel n s = parsePairsFuel m s := by
  intro n
  induction n with
  | zero =>
    intro m s hn _
    omega
  | succ n ih =>
    intro m s hn hm
    cases m with
    | zero => omega
    | succ m =>
      show parsePairsFuel (n + 1) s = parsePairsFuel (m + 1) s
      simp only [parsePairsFuel]
      cases hp : parsePair s with
      | none => rfl
      | some t =>
        obtain ⟨d, c, r⟩ := t
        have hr := parsePair_len s d c r hp
        show (⟨d, c⟩ : doc_entry) :: parsePairsFuel n r = ⟨d, c⟩ :: parsePairsFuel m r
        rw [ih m r (by omega) (by omega)]

theorem parsePairs_cons (s : List Char) (d c : Int) (r : List Char)
    (h : parsePair s = some (d, c, r)) : parsePairs s = ⟨d, c⟩ :: parsePairs r := by
  unfold parsePairs
  have hr := parsePair_len s d c r h
  rw [show parsePairsFuel (s.length + 1) s
      = match parsePair s with
        | none => []
        | some (d, c, r) => ⟨d, c⟩ :: parsePairsFuel s.length r from rfl]
  rw [h]
  show (⟨d, c⟩ : doc_entry) :: parsePairsFuel s.length r = ⟨d, c⟩ :: parsePairsFuel (r.length + 1) r
  rw [parsePairsFuel_congr s.length (r.length + 1) r (by omega) (by omega)]

theorem parsePairs_none (s : List Char) (h : parsePair s = none) : parsePairs s = [] := by
  unfold parsePairs
  rw [show parsePairsFuel (s.length + 1) s
      = match parsePair s with
        | none => []
        | some (d, c, r) => ⟨d, c⟩ :: parsePairsFuel s.length r from rfl]
  rw [h]

theorem parsePairs_save (docs : List doc_entry) :
    parsePairs ((docs.map save_doc).flatten ++ ['\n']) = docs := by
  induction docs with
  | nil =>
    simp only [List.map_nil, List.flatten_nil, List.nil_append]
    apply parsePairs_none
    apply parsePair_none1
    decide
  | cons de ds ih =>
    have hhead : not_digit_head ((ds.map save_doc).flatten ++ ['\n']) := by
      cases ds with
      | nil =>
        show isDigitC '\n' = false
        decide
      | cons d0 ds0 =>
        show isDigitC ' ' = false
        decide
    have hsplit : ((de :: ds).map save_doc).flatten ++ ['\n'] =
        save_doc de ++ ((ds.map save_doc).flatten ++ ['\n']) := by
      simp
    rw [hsplit, parsePairs_cons _ de.docID de.count _ (parsePair_save_doc de _ hhead), ih]

theorem take_tok_exact : ∀ (w : List Char) (n : Nat) (rest : List Char),
    w.length ≤ n → (∀ c ∈ w, cIsSpace c = false) →
    (∃ c cs, rest = c :: cs ∧ cIsSpace c = true) →
    take_tok n (w ++ rest) = w := by
  intro w
  induction w with
  | nil =>
    intro n rest _ _ hrest
    obtain ⟨c, cs, hre, hc⟩ := hrest
    subst hre
    cases n with
    | zero => rfl
    | succ n => simp [take_tok, hc]
  | cons a w ih =>
    intro n rest hlen hws hrest
    cases n with
    | zero => simp at hlen
    | succ n =>
      have ha : cIsSpace a = false := hws a (List.mem_cons_self a w)
      rw [show (a :: w) ++ rest = a :: (w ++ rest) from rfl]
      rw [show take_tok (n + 1) (a :: (w ++ rest)) = a :: take_tok n (w ++ rest) from by
        simp [take_tok, ha]]
      rw [ih n rest (by simp only [List.length_cons] at hlen; omega)
        (fun c hc => hws c (List.mem_cons_of_mem a hc)) hrest]

theorem indexload_line_save (e : word_entry) (hg : good_entry e = true) :
    indexload_line (save_line e) = some e := by
  rw [good_entry, decide_eq_true_eq] at hg
  obtain ⟨hne, hlen255, hws, _⟩ := hg
  obtain ⟨c0, w0, heqw⟩ := List.exists_cons_of_ne_nil hne
  have hR : ∃ c cs, (e.docs.map save_doc).flatten ++ ['\n'] = c :: cs ∧ cIsSpace c = true := by
    cases hd : e.docs with
    | nil => exact ⟨'\n', [], by simp [hd], by decide⟩
    | cons d0 ds =>
      refine ⟨' ', (intToDec d0.docID ++ ' ' :: intToDec d0.count) ++
        ((ds.map save_doc).flatten ++ ['\n']), ?_, by decide⟩
      simp [save_doc]
  have hsl : save_line e = e.word ++ ((e.docs.map save_doc).flatten ++ ['\n']) := by
    unfold save_line
    rw [List.append_assoc]
  have hc0 : cIsSpace c0 = false := hws c0 (by rw [heqw]; exact List.mem_cons_self c0 w0)
  have hskip : skip_ws (e.word ++ ((e.docs.map save_doc).flatten ++ ['\n']))
      = e.word ++ ((e.docs.map save_doc).flatten ++ ['\n']) := by
    rw [heqw, List.cons_append]
    exact skip_ws_cons_of_not_space c0 _ hc0
  have htok : take_tok 255 (e.word ++ ((e.docs.map save_doc).flatten ++ ['\n'])) = e.word :=
    take_tok_exact e.word 255 _ hlen255 hws hR
  unfold indexload_line
  rw [hsl, hskip, htok, if_neg hne, List.drop_left, parsePairs_save e.docs]

theorem takeChunk_line : ∀ (body : List Char), (∀ c ∈ body, c ≠ '\n') →
    ∀ (rest : List Char) (n : Nat), body.length < n →
      takeChunk n (body ++ '\n' :: rest) = body ++ ['\n'] := by
  intro body
  induction body with
  | nil =>
    intro _ rest n hn
    cases n with
    | zero => omega
    | succ n => simp [takeChunk]
  | cons a b ih =>
    intro hb rest n hn
    cases n with
    | zero => omega
    | succ n =>
      have ha : a ≠ '\n' := hb a (List.mem_cons_self a b)
      rw [show (a :: b) ++ '\n' :: rest = a :: (b ++ '\n' :: rest) from rfl]
      rw [show takeChunk (n + 1) (a :: (b ++ '\n' :: rest))
        = a :: takeChunk n (b ++ '\n' :: rest) from by simp [takeChunk, ha]]
      rw [ih (fun c hc => hb c (List.mem_cons_of_mem a hc)) rest n
        (by simp only [List.length_cons] at hn; omega)]
      rfl

theorem intToDec_no_nl (v : Int) : ∀ c ∈ intToDec v, c ≠ '\n' := by
  intro c hc
  unfold intToDec at hc
  by_cases h : v < 0
  · rw [if_pos h] at hc
    rcases List.mem_cons.mp hc with heq | hmem
    · rw [heq]
      decide
    · obtain ⟨k, hk, hck⟩ := natToDigits_chars v.natAbs c hmem
      rw [hck]
      exact (digitChar_signs k hk).2.2
  · rw [if_neg h] at hc
    obtain ⟨k, hk, hck⟩ := natToDigits_chars v.natAbs c hc
    rw [hck]
    exact (digitChar_signs k hk).2.2

theorem save_doc_no_nl (de : doc_entry) : ∀ c ∈ save_doc de, c ≠ '\n' := by
  intro c hc
  unfold save_doc at hc
  rcases List.mem_cons.mp hc with heq | hmem
  · rw [heq]
    decide
  · rcases List.mem_append.mp hmem with h1 | h2
    · exact intToDec_no_nl de.docID c h1
    · rcases List.mem_cons.mp h2 with heq2 | hmem2
      · rw [heq2]
        decide
      · exact intToDec_no_nl de.count c hmem2

theorem save_body_no_nl (e : word_entry) (hws : ∀ c ∈ e.word, cIsSpace c = false) :
    ∀ c ∈ e.word ++ (e.docs.map save_doc).flatten, c ≠ '\n' := by
  intro c hc
  rcases List.mem_append.mp hc with h1 | h2
  · have hcs := hws c h1
    intro heq
    rw [heq] at hcs
    exact absurd hcs (by decide)
  · obtain ⟨l, hl, hcl⟩ := List.mem_flatten.mp h2
    obtain ⟨de, hde, hsl⟩ := List.mem_map.mp hl
    subst hsl
    exact save_doc_no_nl de c hcl

theorem fgetsChunksFuel_cons (n : Nat) (c : Char) (cs : List Char) :
    fgetsChunksFuel (n + 1) (c :: cs) =
      takeChunk FGETS_LIM (c :: cs) ::
        fgetsChunksFuel n ((c :: cs).drop (takeChunk FGETS_LIM (c :: cs)).length) := rfl

theorem fgetsChunksFuel_save : ∀ (idx : List word_entry), (∀ e ∈ idx, good_entry e = true) →
    ∀ n, (indexsave idx).length ≤ n → fgetsChunksFuel n (indexsave idx) = idx.map save_line := by
  intro idx
  induction idx with
  | nil =>
    intro _ n _
    cases n with
    | zero => rfl
    | succ n => rfl
  | cons e es ih =>
    intro h n hn
    have hg := h e (List.mem_cons_self e es)
    have hgood := hg
    rw [good_entry, decide_eq_true_eq] at hgood
    obtain ⟨hne, hlen255, hws, hlenline⟩ := hgood
    obtain ⟨c0, w0, heqw⟩ := List.exists_cons_of_ne_nil hne
    have hfile : indexsave (e :: es) = save_line e ++ indexsave es := by
      unfold indexsave
      simp
    have hsl : save_line e = (e.word ++ (e.docs.map save_doc).flatten) ++ ['\n'] := rfl
    have hsll : (save_line e).length = (e.word ++ (e.docs.map save_doc).flatten).length + 1 := by
      rw [hsl, List.length_append]
      rfl
    have hnn : (e.word ++ (e.docs.map save_doc).flatten) ++ '\n' :: indexsave es
        = indexsave (e :: es) := by
      rw [hfile, hsl,
        List.append_assoc (e.word ++ (e.docs.map save_doc).flatten) ['\n'] (indexsave es)]
      rfl
    cases n with
    | zero =>
      exfalso
      have h1 : 1 ≤ (indexsave (e :: es)).length := by
        rw [← hnn]
        simp only [List.length_append, List.length_cons]
        omega
      omega
    | succ n =>
      have hbody_cons : e.word ++ (e.docs.map save_doc).flatten
          = c0 :: (w0 ++ (e.docs.map save_doc).flatten) := by
        rw [heqw, List.cons_append]
      have hinput : indexsave (e :: es)
          = c0 :: ((w0 ++ (e.docs.map save_doc).flatten) ++ '\n' :: indexsave es) := by
        rw [← hnn, hbody_cons, List.cons_append]
      rw [hinput, fgetsChunksFuel_cons]
      have hback : c0 :: ((w0 ++ (e.docs.map save_doc).flatten) ++ '\n' :: indexsave es)
          = (e.word ++ (e.docs.map save_doc).flatten) ++ '\n' :: indexsave es := by
        rw [hbody_cons, List.cons_append]
      rw [hback]
      have hchunk : takeChunk FGETS_LIM
          ((e.word ++ (e.docs.map save_doc).flatten) ++ '\n' :: indexsave es)
          = (e.word ++ (e.docs.map save_doc).flatten) ++ ['\n'] :=
        takeChunk_line (e.word ++ (e.docs.map save_doc).flatten) (save_body_no_nl e hws)
          (indexsave es) FGETS_LIM (by
            have : (save_line e).length ≤ FGETS_LIM := hlenline
            omega)
      rw [hchunk]
      have hdrop : ((e.word ++ (e.docs.map save_doc).flatten) ++ '\n' :: indexsave es).drop
          ((e.word ++ (e.docs.map save_doc).flatten) ++ ['\n']).length = indexsave es := by
        rw [show (e.word ++ (e.docs.map save_doc).flatten) ++ '\n' :: indexsave es
          = ((e.word ++ (e.docs.map save_doc).flatten) ++ ['\n']) ++ indexsave es from by
            rw [List.append_assoc (e.word ++ (e.docs.map save_doc).flatten) ['\n']
              (indexsave es)]
            rfl]
        exact List.drop_left _ _
      rw [hdrop]
      have hlen_es : (indexsave es).length ≤ n := by
        have h1 : (indexsave (e :: es)).length = (save_line e).length + (indexsave es).length := by
          rw [hfile]
          simp
        omega
      rw [ih (fun e2 he2 => h e2 (List.mem_cons_of_mem e he2)) n hlen_es]
      rw [List.map_cons, hsl]

theorem fgetsChunks_save (idx : List word_entry) (h : ∀ e ∈ idx, good_entry e = true) :
    fgetsChunks (indexsave idx) = idx.map save_line :=
  fgetsChunksFuel_save idx h (indexsave idx).length le_rfl

theorem indexload_indexsave (idx : List word_entry) (h : ∀ e ∈ idx, good_entry e = true) :
    indexload (indexsave idx) = idx := by
  unfold indexload
  rw [fgetsChunks_save idx h]
  have hgen : ∀ (l : List word_entry), (∀ e ∈ l, good_entry e = true) →
      ∀ (acc : List word_entry),
      (l.map save_line).foldl (fun idx2 ln =>
        match indexload_line ln with
        | none => idx2
        | some e => idx2 ++ [e]) acc = acc ++ l := by
    intro l
    induction l with
    | nil =>
      intro _ acc
      simp
    | cons e es ih =>
      intro hl acc
      rw [List.map_cons, List.foldl_cons]
      rw [show (match indexload_line (save_line e) with
          | none => acc
          | some e2 => acc ++ [e2]) = acc ++ [e] from by
        rw [indexload_line_save e (hl e (List.mem_cons_self e es))]]
      rw [ih (fun e2 he2 => hl e2 (List.mem_cons_of_mem e he2)) (acc ++ [e])]
      simp
  have hres := hgen idx h []
  simpa using hres

/-- C3 counterexample: an index entry whose word contains a space
breaks the round trip, because indexload splits the saved line on
whitespace and keeps only the first token as the word; the re-saved
file differs from the original byte for byte. -/
theorem save_load_save_cex :
    indexsave (indexload (indexsave [⟨['a', ' ', 'b'], []⟩])) ≠
      indexsave [⟨['a', ' ', 'b'], []⟩] := by
  decide

/-- C3 amended: for every index whose words are nonempty, free of
whitespace, at most 255 characters long, and whose saved lines are at
most 9999 bytes (one fgets read), saving, loading and saving again
reproduces the original file content byte for byte; words violating
these bounds are truncated or split by the fixed size buffers of
indexload and break the round trip. -/
theorem save_load_save_fixed_point (idx : List word_entry)
    (h : ∀ e ∈ idx, good_entry e = true) :
    indexsave (indexload (indexsave idx)) = indexsave idx := by
  rw [indexload_indexsave idx h]

/-- C3 amended witness: the round trip is exact on the two word test
index with cat in docs one and three and dog in doc two. -/
theorem save_load_save_fixed_point_wit :
    (∀ e ∈ idxRT, good_entry e = true) ∧
    indexsave (indexload (indexsave idxRT)) = indexsave idxRT :=
  ⟨by decide, save_load_save_fixed_point idxRT (by decide)⟩

theorem take_tok_takeWhile : ∀ (n : Nat) (s : List Char),
    take_tok n s = (s.takeWhile (fun c => !cIsSpace c)).take n := by
  intro n s
  induction s generalizing n with
  | nil => cases n <;> rfl
  | cons c cs ih =>
    cases n with
    | zero => rfl
    | succ n =>
      cases h : cIsSpace c with
      | true =>
        rw [show take_tok (n + 1) (c :: cs) = [] from by simp [take_tok, h]]
        rw [List.takeWhile_cons]
        simp [h]
      | false =>
        rw [show take_tok (n + 1) (c :: cs) = c :: take_tok n cs from by simp [take_tok, h]]
        rw [List.takeWhile_cons]
        simp only [h, Bool.not_false, if_true]
        rw [List.take_succ_cons, ih n]

/-- C5 counterexample: a line of 256 letters has that 256 character
string as its single whitespace separated token, yet the created
entry stores only its first 255 characters as the word, because
indexload reads the word through a 255 character scanf limit. -/
theorem load_line_truncation_cex :
    indexload_line (List.replicate 256 'a') = some ⟨List.replicate 255 'a', []⟩ ∧
    first_tok (List.replicate 256 'a') = List.replicate 256 'a' ∧
    Option.map word_entry.word (indexload_line (List.replicate 256 'a')) ≠
      some (first_tok (List.replicate 256 'a')) :=
  ⟨by decide, by decide, by decide⟩

/-- C5 amended: for every line handled by the loading loop, if the
line has no whitespace separated token nothing is inserted, and
otherwise one word entry is always inserted whose word is the first
token truncated to its first 255 characters and whose doc list holds
exactly the docID count pairs obtained by successive scanf style
integer parsing of the text after the stored word, stopping at the
first failure, in file left to right order. -/
theorem load_line_parsed_pairs (line : List Char) :
    (first_tok line = [] → indexload_line line = none) ∧
    (first_tok line ≠ [] →
      indexload_line line =
        some ⟨(first_tok line).take 255,
          parsePairs ((skip_ws line).drop (min 255 (first_tok line).length))⟩) := by
  have htt := take_tok_takeWhile 255 (skip_ws line)
  have hft : first_tok line = (skip_ws line).takeWhile (fun c => !cIsSpace c) := rfl
  constructor
  · intro h
    unfold indexload_line
    rw [htt, ← hft, h]
    simp
  · intro h
    unfold indexload_line
    rw [htt, ← hft]
    have hne : (first_tok line).take 255 ≠ [] := by
      intro hz
      rcases List.take_eq_nil_iff.mp hz with h0 | h0
      · exact absurd h0 (by omega)
      · exact h h0
    rw [if_neg hne, List.length_take]

/-- C5 amended witness: the line cat 1 2 x stores the word cat with
the single pair one two, stopping at the letter x. -/
theorem load_line_parsed_pairs_wit :
    first_tok ['c', 'a', 't', ' ', '1', ' ', '2', ' ', 'x'] ≠ [] ∧
    indexload_line ['c', 'a', 't', ' ', '1', ' ', '2', ' ', 'x'] =
      some ⟨(first_tok ['c', 'a', 't', ' ', '1', ' ', '2', ' ', 'x']).take 255,
        parsePairs ((skip_ws ['c', 'a', 't', ' ', '1', ' ', '2', ' ', 'x']).drop
          (min 255 (first_tok ['c', 'a', 't', ' ', '1', ' ', '2', ' ', 'x']).length))⟩ :=
  ⟨by decide,
   (load_line_parsed_pairs ['c', 'a', 't', ' ', '1', ' ', '2', ' ', 'x']).2 (by decide)⟩
